import Mathlib

/-!
Verification of the ONNX graph-pass interface declared in
`torch/csrc/jit/passes/onnx/peephole.h`:

  void PeepholeOptimizeONNX(std::shared_ptr<Graph>& graph);
  void ConstantFoldONNX(Block* b, std::map<std::string, at::Tensor>& paramDict);

The header is declaration-only; the pass bodies and the `Graph`, `Block` and
`at::Tensor` types live outside the provided sources.  Following the design
specification, the data model and the two passes are modelled here, and the
spec's interface-contract properties are proved about the model.  By-reference
mutation of the C++ interface is rendered as state transformation: a procedure
`void f(T& x)` becomes a function producing the updated value.
-/

/-- Modelled from the spec: `at::Tensor` constant values (the tensor runtime is
outside the provided sources).  The spec's folding example is the integer
computation 1 + 2 = 3, so constant tensors are modelled as exact integer
scalars; the numeric kernels below evaluate them exactly. -/
abbrev Tensor := Int

/-- Modelled from the spec: values are the edges of the IR graph ("value
dependencies"); each is identified by a stable id. -/
abbrev ValueId := Nat

/-- Modelled from the spec: operation kinds carried by IR nodes.  The spec fixes
no operation set, so a representative export-dialect fragment is used: a few
arithmetic operations with numeric kernels, literal constant nodes, and a
`generic` constructor for every operation whose evaluation is unsupported. -/
inductive OpKind where
  | add
  | sub
  | mul
  | neg
  | const (v : Tensor)
  | generic (name : String)
deriving DecidableEq

/-- Modelled from the spec: an operation node of the IR graph, with its input
value edges and the single value it produces. -/
structure Node where
  op : OpKind
  inputs : List ValueId
  output : ValueId
deriving DecidableEq

/-- Modelled from the spec: a `Block` is a scoped region of the graph holding a
node list in deterministic order, the block's named input values (the named
parameters resolved through the parameter dictionary), and its output values. -/
structure Block where
  inputs : List (ValueId × String)
  nodes : List Node
  outputs : List ValueId
deriving DecidableEq

/-- Modelled from the spec: a `Graph` is the mutable IR container whose nodes
are organised into blocks; its top-level region is one block. -/
structure Graph where
  block : Block
deriving DecidableEq

/-- Modelled from the spec: the parameter dictionary
`std::map<std::string, at::Tensor>`, a mapping from parameter names to constant
tensor values with unique keys. -/
abbrev ParamDict := List (String × Tensor)

/-- Lookup of a parameter name in the dictionary (first binding wins). -/
def lookupDict (d : ParamDict) (s : String) : Option Tensor :=
  match d with
  | [] => none
  | (k, v) :: rest => if k = s then some v else lookupDict rest s

/-- An environment of compile-time-known constant values. -/
abbrev Env := ValueId → Option Tensor

/-- Extend an environment with one known constant; an already-known value keeps
its first recorded constant. -/
def extend (env : Env) (v : ValueId) (r : Tensor) : Env :=
  fun w =>
    match env w with
    | some a => some a
    | none => if w = v then some r else none

/-- The initial environment of a block: each named block input resolves to its
entry in the parameter dictionary, if any. -/
def initEnv (d : ParamDict) : List (ValueId × String) → Env
  | [] => fun _ => none
  | (v, s) :: rest => fun w => if w = v then lookupDict d s else initEnv d rest w

/-- Resolve a list of input values to known constants, all or nothing. -/
def resolveAll (env : Env) : List ValueId → Option (List Tensor)
  | [] => some []
  | v :: rest =>
    match env v, resolveAll env rest with
    | some a, some ts => some (a :: ts)
    | _, _ => none

/-- Modelled from the spec: the numeric kernel dispatch for immediate
evaluation of an operation on constant inputs; unsupported operations (and
wrong arities) evaluate to `none`. -/
def evalOp : OpKind → List Tensor → Option Tensor
  | .add, [a, b] => some (a + b)
  | .sub, [a, b] => some (a - b)
  | .mul, [a, b] => some (a * b)
  | .neg, [a] => some (-a)
  | _, _ => none

/-- The literal constant a node carries, when it is a constant node. -/
def constVal : OpKind → Option Tensor
  | .const v => some v
  | _ => none

/-- Modelled from the spec: one step of the constant-folding scan.  A literal
constant node records its value; a node whose every input resolves to a known
constant and whose operation has a kernel is replaced, atomically, by a
constant node holding the precomputed result on the same output value (so all
downstream uses now reference the new constant and the original node is gone);
every other node is left untouched. -/
def foldStep (env : Env) (n : Node) : Node × Env :=
  match constVal n.op with
  | some v => (n, extend env n.output v)
  | none =>
    match resolveAll env n.inputs with
    | none => (n, env)
    | some vals =>
      match evalOp n.op vals with
      | none => (n, env)
      | some r => (Node.mk (OpKind.const r) [] n.output, extend env n.output r)

/-- Modelled from the spec: the constant-folding scan over a block's node list
in deterministic order, threading the environment of known constants. -/
def foldAux (env : Env) : List Node → List Node × Env
  | [] => ([], env)
  | n :: rest =>
    ((foldStep env n).1 :: (foldAux (foldStep env n).2 rest).1,
     (foldAux (foldStep env n).2 rest).2)

/-- Modelled from the spec: `ConstantFoldONNX` (its body is absent from the
provided sources; only the declaration in peephole.h is given).  It folds, in
place, every node of the block whose inputs all resolve to known constants —
literals in the graph or entries of the parameter dictionary — into a
precomputed constant node, and leaves the parameter dictionary's bindings
consistent with the block's remaining constant uses. -/
def ConstantFoldONNX (b : Block) (d : ParamDict) : Block × ParamDict :=
  (Block.mk b.inputs (foldAux (initEnv d b.inputs) b.nodes).1 b.outputs, d)

/-- All constant values known during and after the folding scan of a block. -/
def knownConsts (b : Block) (d : ParamDict) : Env :=
  (foldAux (initEnv d b.inputs) b.nodes).2

/-- Whether a (non-literal) node's inputs all resolve and its operation has a
kernel, i.e. whether the folding scan would rewrite it. -/
def wouldFold (env : Env) (n : Node) : Bool :=
  match constVal n.op with
  | some _ => false
  | none =>
    match resolveAll env n.inputs with
    | none => false
    | some vals => (evalOp n.op vals).isSome

/-- Whether every input of a node resolves to a known constant. -/
def allConstInputs (env : Env) (n : Node) : Bool :=
  (resolveAll env n.inputs).isSome

/-- Modelled from the spec: the fixed local pattern set of the peephole pass.
The spec fixes no rule set (the body of `PeepholeOptimizeONNX` is absent from
the provided sources), so a representative local rewrite pattern is used:
`sub(x, x)`, a node subtracting a value from itself. -/
def matchesPattern (n : Node) : Bool :=
  match n.op, n.inputs with
  | .sub, [x, y] => x = y
  | _, _ => false

/-- Modelled from the spec: the fully-constructed replacement for a matched
node — the equivalent, simpler subgraph (here the constant 0), built in one
step on the same output value so all external uses of the output are
preserved. -/
def completedRewrite (n : Node) : Node :=
  Node.mk (OpKind.const 0) [] n.output

/-- Modelled from the spec: one atomic local rewrite — either the pattern
matches and the node is replaced by its completed rewrite in one step, or the
node is left unchanged; no intermediate state exists. -/
def rewriteNode (n : Node) : Node :=
  if matchesPattern n then completedRewrite n else n

/-- Modelled from the spec: `PeepholeOptimizeONNX` (its body is absent from the
provided sources; only the declaration in peephole.h is given).  It scans the
graph's nodes in deterministic order and applies the fixed set of local
rewrite patterns, each rewrite atomic and in place. -/
def PeepholeOptimizeONNX (g : Graph) : Graph :=
  Graph.mk (Block.mk g.block.inputs (g.block.nodes.map rewriteNode) g.block.outputs)

/-- The producers of a block: its input values and each node's output value. -/
def producers (b : Block) : List ValueId :=
  b.inputs.map Prod.fst ++ b.nodes.map Node.output

/-- Well-formedness of a block: every value has exactly one producer, and no
dangling references — every node input and every block output is produced. -/
def wellFormed (b : Block) : Prop :=
  (producers b).Nodup ∧
  (∀ n ∈ b.nodes, ∀ v ∈ n.inputs, v ∈ producers b) ∧
  (∀ v ∈ b.outputs, v ∈ producers b)

/-- Whether a value is used inside a block, by a node input or a block
output. -/
def usedIn (b : Block) (v : ValueId) : Bool :=
  b.nodes.any (fun n => n.inputs.contains v) || b.outputs.contains v

/-- Consistency of the parameter dictionary with a block's remaining constant
uses: every named block input still used inside the block has an entry. -/
def dictConsistent (b : Block) (d : ParamDict) : Prop :=
  ∀ p ∈ b.inputs, usedIn b p.1 = true → (lookupDict d p.2).isSome = true

/-- A shared-ownership handle to a heap-allocated `Graph` object, identified by
its referent; models the `std::shared_ptr<Graph>` of the declaration. -/
structure GraphHandle where
  referent : Nat
deriving DecidableEq

/-- The declared shape of `PeepholeOptimizeONNX`,
`void PeepholeOptimizeONNX(std::shared_ptr<Graph>&)`: a non-const reference to
the caller's shared-ownership handle, rendered as a handle transformer. -/
abbrev PeepholeDeclaredSig := GraphHandle → GraphHandle

/-- The concrete block of the spec's folding example: a single `add` node whose
two inputs are the literal constants 1 and 2, with one (unsupported, hence
unfoldable) consumer of the `add` node's output. -/
def exAddBlock : Block :=
  Block.mk []
    [Node.mk (OpKind.const 1) [] 0,
     Node.mk (OpKind.const 2) [] 1,
     Node.mk OpKind.add [0, 1] 2,
     Node.mk (OpKind.generic "Relu") [2] 3]
    [3]

/-- Claim C2: on a block with a single `add` node whose two inputs are the
literal constants 1 and 2, `ConstantFoldONNX` replaces that node with a
constant node holding 3, removes the original `add` node, and every consumer
of the `add` node's output now reads it from the new constant node, which is
its unique producer in the result. -/
theorem ConstantFoldONNX_folds_add_one_two :
    (ConstantFoldONNX exAddBlock []).1.nodes =
      [Node.mk (OpKind.const 1) [] 0,
       Node.mk (OpKind.const 2) [] 1,
       Node.mk (OpKind.const 3) [] 2,
       Node.mk (OpKind.generic "Relu") [2] 3] ∧
    (∀ n ∈ (ConstantFoldONNX exAddBlock []).1.nodes, n.op ≠ OpKind.add) ∧
    ((ConstantFoldONNX exAddBlock []).1.nodes.filter
      (fun n => n.inputs.contains 2)) =
      [Node.mk (OpKind.generic "Relu") [2] 3] ∧
    ((ConstantFoldONNX exAddBlock []).1.nodes.filter
      (fun n => n.output = 2)) =
      [Node.mk (OpKind.const 3) [] 2] := by
  decide

/-- Claim C3: the external interface consists of the two declared procedures
with their declared shapes — `PeepholeOptimizeONNX` consumes a graph and
produces only the updated graph (void return, mutation through the reference),
and `ConstantFoldONNX` consumes a block and a parameter dictionary and
produces only their updated values. -/
theorem onnx_interface_shapes :
    (∀ g : Graph, ∃ g2 : Graph, PeepholeOptimizeONNX g = g2) ∧
    (∀ (b : Block) (d : ParamDict), ∃ r : Block × ParamDict,
      ConstantFoldONNX b d = r) :=
  ⟨fun g => ⟨PeepholeOptimizeONNX g, rfl⟩,
   fun b d => ⟨ConstantFoldONNX b d, rfl⟩⟩

/-- Claim C10: the declared signature — a non-const reference to the caller's
shared-ownership handle — permits the pass to reseat the handle to a different
graph object, so in-place mutation of the original referent is not guaranteed
by the signature alone: some function of that signature moves some handle to a
different referent. -/
theorem declared_sig_permits_reseating :
    ∃ f : PeepholeDeclaredSig, ∃ h : GraphHandle,
      (f h).referent ≠ h.referent :=
  ⟨fun h => GraphHandle.mk (h.referent + 1), GraphHandle.mk 0, by decide⟩

theorem rewriteNode_output (n : Node) : (rewriteNode n).output = n.output := by
  unfold rewriteNode
  cases matchesPattern n <;> simp [completedRewrite]

theorem rewriteNode_inputs (n : Node) :
    (rewriteNode n).inputs = n.inputs ∨ (rewriteNode n).inputs = [] := by
  unfold rewriteNode
  cases matchesPattern n <;> simp [completedRewrite]

theorem map_rewriteNode_outputs (ns : List Node) :
    (ns.map rewriteNode).map Node.output = ns.map Node.output := by
  induction ns with
  | nil => rfl
  | cons n rest ih => simp [rewriteNode_output, ih]

theorem producers_peephole (g : Graph) :
    producers (PeepholeOptimizeONNX g).block = producers g.block := by
  simp [producers, PeepholeOptimizeONNX, rewriteNode_output]

instance (b : Block) : Decidable (wellFormed b) := by
  unfold wellFormed
  infer_instance

instance (b : Block) (d : ParamDict) : Decidable (dictConsistent b d) := by
  unfold dictConsistent
  infer_instance

theorem rewriteNode_eq_self (n : Node) (hm : matchesPattern n = false) :
    rewriteNode n = n := by
  simp [rewriteNode, hm]

theorem rewriteNode_eq_completed (n : Node) (hm : matchesPattern n = true) :
    rewriteNode n = completedRewrite n := by
  simp [rewriteNode, hm]

/-- Claim C1: on every well-formed graph, `PeepholeOptimizeONNX` leaves the
graph well-formed: no dangling references remain and every value in the
resulting graph has exactly one producer. -/
theorem PeepholeOptimizeONNX_wellFormed (g : Graph) (h : wellFormed g.block) :
    wellFormed (PeepholeOptimizeONNX g).block := by
  obtain ⟨h1, h2, h3⟩ := h
  refine ⟨?_, ?_, ?_⟩
  · rw [producers_peephole]
    exact h1
  · intro m hm v hv
    rw [producers_peephole]
    simp only [PeepholeOptimizeONNX, List.mem_map] at hm
    obtain ⟨n, hn, rfl⟩ := hm
    rcases rewriteNode_inputs n with he | he
    · exact h2 n hn v (he ▸ hv)
    · rw [he] at hv
      cases hv
  · intro v hv
    rw [producers_peephole]
    simp only [PeepholeOptimizeONNX] at hv
    exact h3 v hv

/-- The well-formed one-node graph used to witness the peephole claims. -/
def exWfGraph : Graph :=
  Graph.mk (Block.mk [(0, "w")] [Node.mk OpKind.sub [0, 0] 1] [1])

theorem PeepholeOptimizeONNX_wellFormed_witness :
    wellFormed exWfGraph.block ∧
    wellFormed (PeepholeOptimizeONNX exWfGraph).block :=
  ⟨by decide, PeepholeOptimizeONNX_wellFormed exWfGraph (by decide)⟩

theorem map_rewriteNode_id (ns : List Node)
    (h : ∀ n ∈ ns, matchesPattern n = false) :
    ns.map rewriteNode = ns := by
  induction ns with
  | nil => rfl
  | cons n rest ih =>
    have hn := h n (List.mem_cons_self n rest)
    have hrest := ih (fun m hm => h m (List.mem_cons_of_mem n hm))
    simp [rewriteNode, hn, hrest]

/-- Claim C4: on every graph containing no node that matches an applicable
rewrite pattern, `PeepholeOptimizeONNX` leaves the graph structurally
unchanged. -/
theorem PeepholeOptimizeONNX_no_match (g : Graph)
    (h : ∀ n ∈ g.block.nodes, matchesPattern n = false) :
    PeepholeOptimizeONNX g = g := by
  cases g with
  | mk b =>
    cases b with
    | mk i ns o =>
      have hmap : ns.map rewriteNode = ns := map_rewriteNode_id ns h
      simp [PeepholeOptimizeONNX, hmap]

/-- A graph with no node matching the peephole pattern set. -/
def exNoMatchGraph : Graph :=
  Graph.mk (Block.mk [] [Node.mk OpKind.add [0, 1] 2] [])

theorem PeepholeOptimizeONNX_no_match_witness :
    (∀ n ∈ exNoMatchGraph.block.nodes, matchesPattern n = false) ∧
    PeepholeOptimizeONNX exNoMatchGraph = exNoMatchGraph :=
  ⟨by decide, PeepholeOptimizeONNX_no_match exNoMatchGraph (by decide)⟩

/-- Claim C8: each individual rewrite performed by `PeepholeOptimizeONNX` is
atomic — every node of the graph is mapped either to itself, or (when the
pattern matches) to the fully-constructed replacement in one step; no node is
ever left in a partially rewritten state. -/
theorem PeepholeOptimizeONNX_atomic (g : Graph) (i : Nat)
    (h : i < g.block.nodes.length) :
    ∃ h2 : i < (PeepholeOptimizeONNX g).block.nodes.length,
      (PeepholeOptimizeONNX g).block.nodes.get ⟨i, h2⟩ =
        g.block.nodes.get ⟨i, h⟩ ∨
      (matchesPattern (g.block.nodes.get ⟨i, h⟩) = true ∧
       (PeepholeOptimizeONNX g).block.nodes.get ⟨i, h2⟩ =
         completedRewrite (g.block.nodes.get ⟨i, h⟩)) := by
  have hlen : (PeepholeOptimizeONNX g).block.nodes.length =
      g.block.nodes.length := by
    simp [PeepholeOptimizeONNX]
  refine ⟨hlen ▸ h, ?_⟩
  have hget : (PeepholeOptimizeONNX g).block.nodes.get ⟨i, hlen ▸ h⟩ =
      rewriteNode (g.block.nodes.get ⟨i, h⟩) := by
    simp [PeepholeOptimizeONNX]
  cases hm : matchesPattern (g.block.nodes.get ⟨i, h⟩) with
  | false =>
    left
    rw [hget, rewriteNode_eq_self _ hm]
  | true =>
    right
    exact ⟨rfl, by rw [hget, rewriteNode_eq_completed _ hm]⟩

/-- A one-node graph whose node matches the peephole pattern. -/
def exSubGraph : Graph :=
  Graph.mk (Block.mk [(0, "x")] [Node.mk OpKind.sub [0, 0] 1] [1])

theorem PeepholeOptimizeONNX_atomic_witness :
    0 < exSubGraph.block.nodes.length ∧
    (∃ h2 : 0 < (PeepholeOptimizeONNX exSubGraph).block.nodes.length,
      (PeepholeOptimizeONNX exSubGraph).block.nodes.get ⟨0, h2⟩ =
        exSubGraph.block.nodes.get ⟨0, by decide⟩ ∨
      (matchesPattern (exSubGraph.block.nodes.get ⟨0, by decide⟩) = true ∧
       (PeepholeOptimizeONNX exSubGraph).block.nodes.get ⟨0, h2⟩ =
         completedRewrite (exSubGraph.block.nodes.get ⟨0, by decide⟩))) :=
  ⟨by decide, PeepholeOptimizeONNX_atomic exSubGraph 0 (by decide)⟩

theorem extend_preserve (env : Env) (u : ValueId) (r : Tensor) (v : ValueId)
    (a : Tensor) (h : env v = some a) : extend env u r v = some a := by
  unfold extend
  rw [h]

theorem foldStep_preserve (env : Env) (n : Node) (v : ValueId) (a : Tensor)
    (h : env v = some a) : (foldStep env n).2 v = some a := by
  cases hc : constVal n.op with
  | some c =>
    have hs : foldStep env n = (n, extend env n.output c) := by
      simp [foldStep, hc]
    rw [hs]
    exact extend_preserve env n.output c v a h
  | none =>
    cases hr : resolveAll env n.inputs with
    | none =>
      have hs : foldStep env n = (n, env) := by simp [foldStep, hc, hr]
      rw [hs]
      exact h
    | some vals =>
      cases he : evalOp n.op vals with
      | none =>
        have hs : foldStep env n = (n, env) := by simp [foldStep, hc, hr, he]
        rw [hs]
        exact h
      | some r =>
        have hs : foldStep env n =
            (Node.mk (OpKind.const r) [] n.output, extend env n.output r) := by
          simp [foldStep, hc, hr, he]
        rw [hs]
        exact extend_preserve env n.output r v a h

theorem foldAux_preserve (ns : List Node) (env : Env) (v : ValueId) (a : Tensor)
    (h : env v = some a) : (foldAux env ns).2 v = some a := by
  induction ns generalizing env with
  | nil => exact h
  | cons n rest ih => exact ih (foldStep env n).2 (foldStep_preserve env n v a h)

theorem resolveAll_mono (env F : Env)
    (hsub : ∀ w b, env w = some b → F w = some b) :
    ∀ l ts, resolveAll env l = some ts → resolveAll F l = some ts := by
  intro l
  induction l with
  | nil => exact fun ts h => h
  | cons v rest ih =>
    intro ts h
    cases hv : env v with
    | none => simp [resolveAll, hv] at h
    | some a =>
      cases hr : resolveAll env rest with
      | none => simp [resolveAll, hv, hr] at h
      | some ts2 =>
        simp only [resolveAll, hv, hr] at h
        have hF := hsub v a hv
        have hrest := ih ts2 hr
        simp only [resolveAll, hF, hrest]
        exact h

theorem foldAux_length (ns : List Node) (env : Env) :
    (foldAux env ns).1.length = ns.length := by
  induction ns generalizing env with
  | nil => rfl
  | cons n rest ih => simp only [foldAux, List.length_cons, ih]

theorem foldAux_no_fold (ns : List Node) (env : Env)
    (h : ∀ n ∈ ns, (resolveAll ((foldAux env ns).2) n.inputs).isSome = false) :
    (foldAux env ns).1 = ns := by
  induction ns generalizing env with
  | nil => rfl
  | cons n rest ih =>
    have htail : ∀ m ∈ rest,
        (resolveAll ((foldAux (foldStep env n).2 rest).2) m.inputs).isSome =
          false :=
      fun m hm => h m (List.mem_cons_of_mem n hm)
    have hhead : (foldStep env n).1 = n := by
      cases hc : constVal n.op with
      | some c => simp [foldStep, hc]
      | none =>
        cases hr : resolveAll env n.inputs with
        | none => simp [foldStep, hc, hr]
        | some vals =>
          exfalso
          have hsub : ∀ w b, env w = some b →
              (foldAux env (n :: rest)).2 w = some b :=
            fun w b hw => foldAux_preserve (n :: rest) env w b hw
          have hres : resolveAll ((foldAux env (n :: rest)).2) n.inputs =
              some vals :=
            resolveAll_mono env _ hsub n.inputs vals hr
          have hh := h n (List.mem_cons_self n rest)
          rw [hres] at hh
          simp at hh
    show (foldStep env n).1 :: (foldAux (foldStep env n).2 rest).1 = n :: rest
    rw [hhead, ih (foldStep env n).2 htail]

/-- Claim C5: on every block in which no node has all-constant inputs,
`ConstantFoldONNX` leaves both the block and the parameter dictionary
unchanged. -/
theorem ConstantFoldONNX_no_const_inputs (b : Block) (d : ParamDict)
    (h : ∀ n ∈ b.nodes, allConstInputs (knownConsts b d) n = false) :
    ConstantFoldONNX b d = (b, d) := by
  obtain ⟨i, ns, o⟩ := b
  have hb : (foldAux (initEnv d i) ns).1 = ns :=
    foldAux_no_fold ns (initEnv d i) h
  show (Block.mk i (foldAux (initEnv d i) ns).1 o, d) = (Block.mk i ns o, d)
  rw [hb]

/-- A block whose single node reads only values that are not constants. -/
def exStuckBlock : Block := Block.mk [] [Node.mk OpKind.add [5, 6] 7] []

theorem ConstantFoldONNX_no_const_inputs_witness :
    (∀ n ∈ exStuckBlock.nodes,
      allConstInputs (knownConsts exStuckBlock []) n = false) ∧
    ConstantFoldONNX exStuckBlock [] = (exStuckBlock, []) :=
  ⟨by decide, ConstantFoldONNX_no_const_inputs exStuckBlock [] (by decide)⟩

theorem foldStep_idem (env : Env) (n : Node) :
    foldStep env (foldStep env n).1 = foldStep env n := by
  cases hc : constVal n.op with
  | some c =>
    have h1 : foldStep env n = (n, extend env n.output c) := by
      simp [foldStep, hc]
    rw [h1]
    exact h1
  | none =>
    cases hr : resolveAll env n.inputs with
    | none =>
      have h1 : foldStep env n = (n, env) := by simp [foldStep, hc, hr]
      rw [h1]
      exact h1
    | some vals =>
      cases he : evalOp n.op vals with
      | none =>
        have h1 : foldStep env n = (n, env) := by simp [foldStep, hc, hr, he]
        rw [h1]
        exact h1
      | some r =>
        have h1 : foldStep env n =
            (Node.mk (OpKind.const r) [] n.output, extend env n.output r) := by
          simp [foldStep, hc, hr, he]
        rw [h1]
        simp [foldStep, constVal]

theorem foldAux_idem (ns : List Node) (env : Env) :
    foldAux env (foldAux env ns).1 = foldAux env ns := by
  induction ns generalizing env with
  | nil => rfl
  | cons n rest ih =>
    simp only [foldAux]
    rw [foldStep_idem env n, ih (foldStep env n).2]

/-- Claim C6: `ConstantFoldONNX` is idempotent — after the first call has
folded all foldable nodes, running it again on the resulting block and
parameter dictionary changes neither. -/
theorem ConstantFoldONNX_idempotent (b : Block) (d : ParamDict) :
    ConstantFoldONNX (ConstantFoldONNX b d).1 (ConstantFoldONNX b d).2 =
      ConstantFoldONNX b d := by
  obtain ⟨i, ns, o⟩ := b
  show (Block.mk i (foldAux (initEnv d i) (foldAux (initEnv d i) ns).1).1 o, d) =
    (Block.mk i (foldAux (initEnv d i) ns).1 o, d)
  rw [foldAux_idem ns (initEnv d i)]

theorem foldStep_keep (env F : Env) (n : Node)
    (hsub : ∀ w b, env w = some b → F w = some b)
    (hn : wouldFold F n = false) : (foldStep env n).1 = n := by
  cases hc : constVal n.op with
  | some c => simp [foldStep, hc]
  | none =>
    cases hr : resolveAll env n.inputs with
    | none => simp [foldStep, hc, hr]
    | some vals =>
      cases he : evalOp n.op vals with
      | none => simp [foldStep, hc, hr, he]
      | some r =>
        exfalso
        have hr2 : resolveAll F n.inputs = some vals :=
          resolveAll_mono env F hsub n.inputs vals hr
        simp [wouldFold, hc, hr2, he] at hn

theorem foldAux_keep (ns : List Node) (env : Env) (i : Nat)
    (h : i < ns.length)
    (hn : wouldFold ((foldAux env ns).2) (ns.get ⟨i, h⟩) = false) :
    ∃ h2 : i < (foldAux env ns).1.length,
      (foldAux env ns).1.get ⟨i, h2⟩ = ns.get ⟨i, h⟩ := by
  induction ns generalizing env i with
  | nil => exact absurd h (Nat.not_lt_zero i)
  | cons n rest ih =>
    cases i with
    | zero =>
      have hkeep : (foldStep env n).1 = n :=
        foldStep_keep env ((foldAux env (n :: rest)).2) n
          (fun w b hw => foldAux_preserve (n :: rest) env w b hw) hn
      exact ⟨Nat.succ_pos _, hkeep⟩
    | succ j =>
      have hj : j < rest.length := Nat.lt_of_succ_lt_succ h
      obtain ⟨h2, hg⟩ := ih (foldStep env n).2 j hj hn
      exact ⟨Nat.succ_lt_succ h2, hg⟩

/-- Claim C7: every node of the block whose operation's evaluation is
unsupported, or whose inputs do not all resolve to known constants, is left
untouched by `ConstantFoldONNX` — it survives unchanged at its position. -/
theorem ConstantFoldONNX_keeps_unfoldable (b : Block) (d : ParamDict)
    (i : Nat) (h : i < b.nodes.length)
    (hn : wouldFold (knownConsts b d) (b.nodes.get ⟨i, h⟩) = false) :
    ∃ h2 : i < (ConstantFoldONNX b d).1.nodes.length,
      (ConstantFoldONNX b d).1.nodes.get ⟨i, h2⟩ = b.nodes.get ⟨i, h⟩ :=
  foldAux_keep b.nodes (initEnv d b.inputs) i h hn

/-- A block whose single node has an unsupported operation. -/
def exUnsupportedBlock : Block :=
  Block.mk [] [Node.mk (OpKind.generic "Sigmoid") [0] 1] [1]

theorem ConstantFoldONNX_keeps_unfoldable_witness :
    0 < exUnsupportedBlock.nodes.length ∧
    wouldFold (knownConsts exUnsupportedBlock [])
      (exUnsupportedBlock.nodes.get ⟨0, by decide⟩) = false ∧
    (∃ h2 : 0 < (ConstantFoldONNX exUnsupportedBlock []).1.nodes.length,
      (ConstantFoldONNX exUnsupportedBlock []).1.nodes.get ⟨0, h2⟩ =
        exUnsupportedBlock.nodes.get ⟨0, by decide⟩) :=
  ⟨by decide, by decide,
   ConstantFoldONNX_keeps_unfoldable exUnsupportedBlock [] 0 (by decide)
     (by decide)⟩

theorem foldStep_inputs_sub (env : Env) (n : Node) (v : ValueId)
    (h : (foldStep env n).1.inputs.contains v = true) :
    n.inputs.contains v = true := by
  cases hc : constVal n.op with
  | some c => simpa [foldStep, hc] using h
  | none =>
    cases hr : resolveAll env n.inputs with
    | none => simpa [foldStep, hc, hr] using h
    | some vals =>
      cases he : evalOp n.op vals with
      | none => simpa [foldStep, hc, hr, he] using h
      | some r => simp [foldStep, hc, hr, he] at h

theorem foldAux_used_sub (ns : List Node) (env : Env) (v : ValueId)
    (h : (foldAux env ns).1.any (fun n => n.inputs.contains v) = true) :
    ns.any (fun n => n.inputs.contains v) = true := by
  induction ns generalizing env with
  | nil => exact h
  | cons n rest ih =>
    simp only [foldAux, List.any_cons, Bool.or_eq_true] at h
    simp only [List.any_cons, Bool.or_eq_true]
    rcases h with h1 | h2
    · exact Or.inl (foldStep_inputs_sub env n v h1)
    · exact Or.inr (ih (foldStep env n).2 h2)

theorem usedIn_fold (b : Block) (d : ParamDict) (v : ValueId)
    (h : usedIn (ConstantFoldONNX b d).1 v = true) : usedIn b v = true := by
  unfold usedIn at h ⊢
  simp only [Bool.or_eq_true] at h ⊢
  rcases h with h1 | h2
  · exact Or.inl (foldAux_used_sub b.nodes (initEnv d b.inputs) v h1)
  · exact Or.inr h2

/-- Claim C9: folding keeps the parameter dictionary consistent with the
graph's remaining constant uses — if every named parameter used in the block
resolves through the dictionary before the call, the same holds of the block
and dictionary `ConstantFoldONNX` produces (folded results become literal
constant nodes, and uses of named parameters only disappear). -/
theorem ConstantFoldONNX_dict_consistent (b : Block) (d : ParamDict)
    (h : dictConsistent b d) :
    dictConsistent (ConstantFoldONNX b d).1 (ConstantFoldONNX b d).2 := by
  intro p hp hu
  exact h p hp (usedIn_fold b d p.1 hu)

/-- A block consuming one named parameter through an unsupported node. -/
def exParamBlock : Block :=
  Block.mk [(0, "p")] [Node.mk (OpKind.generic "Relu") [0] 1] [1]

/-- The matching one-entry parameter dictionary. -/
def exParamDict : ParamDict := [("p", 5)]

theorem ConstantFoldONNX_dict_consistent_witness :
    dictConsistent exParamBlock exParamDict ∧
    dictConsistent (ConstantFoldONNX exParamBlock exParamDict).1
      (ConstantFoldONNX exParamBlock exParamDict).2 :=
  ⟨by decide,
   ConstantFoldONNX_dict_consistent exParamBlock exParamDict (by decide)⟩
